import Mathlib

set_option linter.unusedVariables false

/-!
Shallow embedding of the `metafile-codecov-bundle` repository core
(`normalize.ts`, `compress.ts`, `transform.ts`, `github.ts`, `upload.ts`)
together with theorems settling the specification claims.

Strings are modelled as Lean `String` (lists of characters), byte buffers as
`List Nat`, JavaScript objects/records as association lists in insertion
order, and the external collaborators (filesystem reads, the gzip encoder
from `node:zlib`, the system clock, and the HTTP fetcher) as explicit
function parameters.
-/

namespace MetafileCodecov

/-! ### Character classes used by the regexes in the source -/

/-- Character class `[a-f0-9]` under the `/i` flag (case-insensitive hex). -/
def isHexChar (c : Char) : Bool :=
  (48 ≤ c.toNat && c.toNat ≤ 57) || (97 ≤ c.toNat && c.toNat ≤ 102) ||
    (65 ≤ c.toNat && c.toNat ≤ 70)

/-- Character class `[a-z]` under the `/i` flag: ASCII letters of either case. -/
def isAsciiLetter (c : Char) : Bool :=
  (97 ≤ c.toNat && c.toNat ≤ 122) || (65 ≤ c.toNat && c.toNat ≤ 90)

/-- Character class `[-.]`: the hash delimiters accepted by `normalize.ts`. -/
def isDelim (c : Char) : Bool := c == '-' || c == '.'

/-! ### `node:path` (posix) helpers used by the source -/

def dropTrailingSlashes (cs : List Char) : List Char :=
  (cs.reverse.dropWhile (fun c => c == '/')).reverse

/-- Model of `path.posix.basename` (no extension argument): drop trailing
separators, then keep the final path segment. -/
def basename (p : String) : String :=
  let t := dropTrailingSlashes p.data
  String.mk ((t.reverse.takeWhile (fun c => c != '/')).reverse)

/-- Model of `path.posix.dirname`: scan from the end past trailing
separators and the last segment; `uLen` is one past the index of the
separator terminating that scan (node's `end + 1`). -/
def dirname (p : String) : String :=
  let cs := p.data
  if cs.isEmpty then "."
  else
    let hasRoot := cs.head? == some '/'
    let t := dropTrailingSlashes cs
    let segLen := (t.reverse.takeWhile (fun c => c != '/')).length
    let uLen := t.length - segLen
    if uLen ≤ 1 then (if hasRoot then "/" else ".")
    else if hasRoot && uLen == 2 then "//"
    else String.mk (t.take (uLen - 1))

/-- Split a character list at `/` separators, keeping empty segments —
the segment enumeration node's `normalizeString` performs. -/
def splitSegs : List Char → List (List Char)
  | [] => [[]]
  | c :: rest =>
    if c == '/' then [] :: splitSegs rest
    else
      match splitSegs rest with
      | s :: ss => (c :: s) :: ss
      | [] => [[c]]

/-- Re-join segments with `/` separators. -/
def joinSegs : List (List Char) → List Char
  | [] => []
  | [s] => s
  | s :: ss => s ++ '/' :: joinSegs ss

/-- One step of node's `normalizeString` segment stack: `""` and `"."` are
dropped, `".."` pops a previous segment (or is kept/dropped at the root
depending on `allowAboveRoot`), anything else is pushed.  The accumulator
holds the segments in reverse order. -/
def stepSeg (allowAboveRoot : Bool) (acc : List (List Char)) (seg : List Char) :
    List (List Char) :=
  if seg.isEmpty || seg == ['.'] then acc
  else if seg == ['.', '.'] then
    match acc with
    | last :: rest => if last == ['.', '.'] then seg :: acc else rest
    | [] => if allowAboveRoot then [seg] else []
  else seg :: acc

/-- Model of `path.posix.normalize`. -/
def posixNormalize (p : String) : String :=
  if p = "" then "."
  else
    let isAbs := p.data.head? == some '/'
    let trailingSep := p.data.getLast? == some '/'
    let stack := (splitSegs p.data).foldl (stepSeg (!isAbs)) []
    let core := joinSegs stack.reverse
    if core.isEmpty then
      (if isAbs then "/" else if trailingSep then "./" else ".")
    else
      if isAbs then String.mk ('/' :: (if trailingSep then core ++ ['/'] else core))
      else String.mk (if trailingSep then core ++ ['/'] else core)

/-- Model of the two-argument `path.posix.join`: concatenate the non-empty
parts with `/` and normalize. -/
def joinPath (a b : String) : String :=
  if a = "" && b = "" then "."
  else if a = "" then posixNormalize b
  else if b = "" then posixNormalize a
  else posixNormalize (a ++ "/" ++ b)

/-- Model of JavaScript `String.prototype.endsWith`. -/
def hasSuffix (s suffix : String) : Bool :=
  List.isPrefixOf suffix.data.reverse s.data.reverse

/-- Model of `.replace(/\.[^.]+$/, "")`: strip a final extension consisting
of a dot followed by one or more non-dot characters. -/
def stripFinalExt (s : String) : String :=
  let rev := s.data.reverse
  let ext := rev.takeWhile (fun c => c != '.')
  if ext.length < rev.length && !ext.isEmpty then
    String.mk ((rev.drop (ext.length + 1)).reverse)
  else s

/-! ### `normalize.ts` -/

/-- Tail `\.[a-z]+$` (under `/i`) of the hash regex: a dot followed by a
non-empty run of ASCII letters reaching the end of the base name. -/
def isDotExt : List Char → Bool
  | c :: e => c == '.' && !e.isEmpty && e.all isAsciiLetter
  | [] => false

/-- Match of `([-.])[a-f0-9]{8,}(\.[a-z]+)$` (flag `/i`) anchored at the head
of `cs`, returning the replacement `$1*$2` for the matched suffix.  Because
`[a-f0-9]` excludes `.`, the greedy `{8,}` quantifier (with backtracking)
accepts exactly the maximal hex run, which must be followed by the
extension. -/
def matchHashAt (cs : List Char) : Option (List Char) :=
  match cs with
  | d :: rest =>
    if isDelim d then
      if 8 ≤ (rest.takeWhile isHexChar).length &&
          isDotExt (rest.drop (rest.takeWhile isHexChar).length) then
        some (d :: '*' :: rest.drop (rest.takeWhile isHexChar).length)
      else none
    else none
  | [] => none

/-- Model of `base.replace(/([-.])[a-f0-9]{8,}(\.[a-z]+)$/i, "$1*$2")` as an
option: JavaScript `replace` substitutes the leftmost match; `none` means no
match anywhere (the source detects this by comparing with `base`, which is
equivalent since the replacement string always differs from the match). -/
def replaceFirstHash : List Char → Option (List Char)
  | [] => none
  | c :: cs =>
    match matchHashAt (c :: cs) with
    | some repl => some repl
    | none => (replaceFirstHash cs).map (fun r => c :: r)

/-- Model of the global `base.replace(/[a-f0-9]{8,}/gi, "*")`: each maximal
hex run of length at least 8 collapses to a single `*`. -/
def replaceHexRuns : List Char → List Char
  | [] => []
  | c :: rest =>
    if isHexChar c then
      if 8 ≤ (rest.takeWhile isHexChar).length + 1 then
        '*' :: replaceHexRuns (rest.drop (rest.takeWhile isHexChar).length)
      else (c :: rest.takeWhile isHexChar) ++
        replaceHexRuns (rest.drop (rest.takeWhile isHexChar).length)
    else c :: replaceHexRuns rest
termination_by cs => cs.length
decreasing_by
  all_goals simp [List.length_drop]
  all_goals omega

/-- True when some suffix of `cs` starts with at least 8 hex characters,
i.e. `cs` contains a hex run of length 8 or more. -/
def hasLongHexRun : List Char → Bool
  | [] => false
  | c :: rest => (8 ≤ ((c :: rest).takeWhile isHexChar).length : Bool) || hasLongHexRun rest

/-- Model of `normalizeAssetName` from `normalize.ts`. -/
def normalizeAssetName (name : String) : String :=
  let dir := dirname name
  let base := basename name
  match replaceFirstHash base.data with
  | some repl =>
    let normalized := String.mk repl
    if dir = "." then normalized else joinPath dir normalized
  | none =>
    let fallback := String.mk (replaceHexRuns base.data)
    if dir = "." then fallback else joinPath dir fallback

/-! ### `compress.ts` -/

/-- Extension alternatives of the regex `/\.(css|html|json|js|mjs|svg|txt|xml|xhtml)$/`. -/
def COMPRESSIBLE_EXTS : List String :=
  ["css", "html", "json", "js", "mjs", "svg", "txt", "xml", "xhtml"]

/-- The regex `COMPRESSIBLE.test(fileName)`: the file name ends with a dot
followed by one of the listed extensions (case-sensitive, no `/i` flag). -/
def isCompressibleName (fileName : String) : Bool :=
  COMPRESSIBLE_EXTS.any (fun ext => hasSuffix fileName ("." ++ ext))

/-- Model of `getGzipSize` from `compress.ts`.  The encoder `gzipSync` from
`node:zlib` is external to the repository and is passed in as the function
`gzip`; the source returns the byte length of its output. -/
def getGzipSize (gzip : List Nat → List Nat) (fileName : String)
    (content : List Nat) : Option Nat :=
  if !isCompressibleName fileName then none
  else some (gzip content).length

/-! ### `github.ts` -/

/-- Model of `encodeSlug`: split on the first `/` (JS `indexOf`; `findIdx`
returns the length when no `/` occurs, matching the `idx === -1` branch). -/
def encodeSlug (ownerRepo : String) : String :=
  let cs := ownerRepo.data
  let idx := cs.findIdx (fun c => c == '/')
  if idx = cs.length then ownerRepo ++ "::::"
  else String.mk (cs.take idx) ++ ":::" ++ String.mk (cs.drop (idx + 1)) ++ "::::"

structure GitHubActionsParams where
  branch : String
  commit : String
  pr : String
  service : String
  slug : String
  build : String
  buildURL : String
  job : String
deriving Repr, DecidableEq

/-! ### `upload.ts`

The HTTP layer is modelled by a response oracle `fetcher : Nat → HttpResponse`
giving the response to the n-th request issued (matching the sequential fake
fetcher used by the repository's tests); each operation threads the running
call count explicitly.  Response bodies are modelled by their parsed `url`
field.  `await delay(delayMs)` only suspends and is a no-op on the state. -/

structure HttpResponse where
  status : Nat
  statusText : String
  /-- The `url` field of the JSON body, when present. -/
  jsonUrl : Option String
deriving Repr, DecidableEq

/-- `Response.ok` from fetch: status in the range 200-299. -/
def HttpResponse.ok (r : HttpResponse) : Bool :=
  200 ≤ r.status && r.status < 300

def CODECOV_API_URL : String := "https://api.codecov.io/upload/bundle_analysis/v1"

def MAX_RETRIES : Nat := 3

def RETRY_DELAY_MS : Nat := 1000

/-- Error message `` `Request failed: ${response.status} ${response.statusText}` ``. -/
def requestFailedMsg (r : HttpResponse) : String :=
  "Request failed: " ++ toString r.status ++ " " ++ r.statusText

/-- Model of `fetchWithRetry`: issue the request, return an ok response,
and otherwise retry (after the delay) while more than one attempt remains.
Returns the outcome together with the updated call count. -/
def fetchWithRetry (fetcher : Nat → HttpResponse) (delayMs : Nat)
    (calls retries : Nat) : Except String HttpResponse × Nat :=
  let response := fetcher calls
  if response.ok then (Except.ok response, calls + 1)
  else if h : retries ≤ 1 then (Except.error (requestFailedMsg response), calls + 1)
  else fetchWithRetry fetcher delayMs (calls + 1) (retries - 1)
termination_by retries
decreasing_by omega

def missingUrlMsg : String := "Presigned URL response missing 'url' field"

/-- Model of `getPresignedUrl`: one retried POST, then the `url` field of the
body is required (`!data.url` also rejects an empty string). -/
def getPresignedUrl (apiUrl : String) (serviceParams : GitHubActionsParams)
    (oidcToken : String) (fetcher : Nat → HttpResponse) (delayMs : Nat)
    (calls retries : Nat) : Except String String × Nat :=
  match fetchWithRetry fetcher delayMs calls retries with
  | (Except.error e, c) => (Except.error e, c)
  | (Except.ok resp, c) =>
    match resp.jsonUrl with
    | none => (Except.error missingUrlMsg, c)
    | some url => if url = "" then (Except.error missingUrlMsg, c) else (Except.ok url, c)

/-- Model of `putPayload`: one retried PUT whose response body is ignored. -/
def putPayload (presignedUrl : String) (payload : String)
    (fetcher : Nat → HttpResponse) (delayMs : Nat)
    (calls retries : Nat) : Except String Unit × Nat :=
  match fetchWithRetry fetcher delayMs calls retries with
  | (Except.error e, c) => (Except.error e, c)
  | (Except.ok _, c) => (Except.ok (), c)

structure UploadOptions where
  payload : String
  oidcToken : String
  serviceParams : GitHubActionsParams
  apiUrl : Option String := none
  retryDelayMs : Option Nat := none

structure UploadResult where
  success : Bool
  presignedUrl : Option String
  error : Option String
deriving Repr, DecidableEq

/-- Model of `uploadBundleStats`: the two phases inside `try`, with any
`Except.error` (the model of a thrown error) converted into a
`success = false` result by the `catch` block. -/
def uploadBundleStats (fetcher : Nat → HttpResponse)
    (options : UploadOptions) : UploadResult × Nat :=
  let apiUrl := options.apiUrl.getD CODECOV_API_URL
  let retryDelay := options.retryDelayMs.getD RETRY_DELAY_MS
  match getPresignedUrl apiUrl options.serviceParams options.oidcToken fetcher
      retryDelay 0 MAX_RETRIES with
  | (Except.error e, c) =>
    ({ success := false, presignedUrl := none, error := some e }, c)
  | (Except.ok url, c) =>
    match putPayload url options.payload fetcher retryDelay c MAX_RETRIES with
    | (Except.error e, c') =>
      ({ success := false, presignedUrl := none, error := some e }, c')
    | (Except.ok _, c') =>
      ({ success := true, presignedUrl := some url, error := none }, c')

/-! ### `types.ts` and `transform.ts`

JavaScript records with dynamic keys (`metafile.inputs`, `metafile.outputs`,
`output.inputs`) are modelled as association lists in insertion order, which
is the order `Object.entries` enumerates.  Keys of a parsed JSON object are
unique; theorems that need this state it as a `Nodup` hypothesis. -/

structure ImportEntry where
  path : String
  kind : String
  /-- The optional `external` flag; an absent field is modelled as `false`,
  matching the `!imp.external` truthiness test in the source. -/
  external : Bool := false
deriving Repr, DecidableEq

structure MetafileInput where
  bytes : Nat
  imports : List ImportEntry
deriving Repr, DecidableEq

structure MetafileOutput where
  bytes : Nat
  inputs : List (String × Nat)
  imports : List ImportEntry
  exports : List String
  entryPoint : Option String := none
deriving Repr, DecidableEq

structure Metafile where
  inputs : List (String × MetafileInput)
  outputs : List (String × MetafileOutput)
deriving Repr, DecidableEq

structure Asset where
  name : String
  size : Nat
  gzipSize : Option Nat
  normalized : String
deriving Repr, DecidableEq

structure Chunk where
  id : String
  uniqueId : String
  entry : Bool
  initial : Bool
  names : List String
  files : List String
  dynamicImports : List String
deriving Repr, DecidableEq

structure Module where
  name : String
  size : Nat
  chunkUniqueIds : List String
deriving Repr, DecidableEq

structure PluginInfo where
  name : String
  version : String
deriving Repr, DecidableEq

structure BundlerInfo where
  name : String
  version : String
deriving Repr, DecidableEq

structure OutputPayload where
  version : String
  bundleName : String
  bundler : Option BundlerInfo
  builtAt : Nat
  duration : Option Nat
  assets : List Asset
  chunks : List Chunk
  modules : List Module
  plugin : PluginInfo
deriving Repr, DecidableEq

structure TransformOptions where
  bundleName : String
  outputDir : Option String := none
  bundler : Option BundlerInfo := none
  builtAt : Option Nat := none
  duration : Option Nat := none

/-- The `path → uniqueId` map built by the indexed `for` loop:
`chunkIdMap.set(outputPath,` ``  `${i}-${outputPath}` ``  `)`. -/
def chunkIdMapOf (outputEntries : List (String × MetafileOutput)) :
    List (String × String) :=
  outputEntries.enum.map (fun p => (p.2.1, toString p.1 ++ "-" ++ p.2.1))

/-- JavaScript `Map.prototype.get`: `set` on an existing key overwrites, so
the last binding for a key wins. -/
def mapGet (m : List (String × String)) (k : String) : Option String :=
  (m.reverse.find? (fun e => e.1 == k)).map Prod.snd

/-- Model of `transformMetafile` from `transform.ts`.  External
collaborators become parameters: `readFile` models `readFileSync` under the
resolved `outputDir` (`none` models a thrown read error, swallowed by the
`try`/`catch`), `gzip` models `gzipSync`, `pluginVersion` is the package
version imported from `package.json`, and `now` models `Date.now()`.
The `continue` on `.map` paths becomes `filterMap` returning `none`. -/
def transformMetafile (readFile : String → Option (List Nat))
    (gzip : List Nat → List Nat) (pluginVersion : String) (now : Nat)
    (metafile : Metafile) (options : TransformOptions) : OutputPayload :=
  -- `options.outputDir ? resolve(options.outputDir) : undefined`: the empty
  -- string is falsy; `resolve` (against the process working directory) is
  -- absorbed by the `readFile` oracle.
  let outputDir := match options.outputDir with
    | some d => if d = "" then none else some d
    | none => none
  let outputEntries := metafile.outputs
  let chunkIdMap := chunkIdMapOf outputEntries
  let assets : List Asset := outputEntries.filterMap (fun e =>
    if hasSuffix e.1 ".map" then none
    else
      let gzipSize : Option Nat := match outputDir with
        | none => none
        | some dir =>
          match readFile (joinPath dir (basename e.1)) with
          | none => none
          | some content => getGzipSize gzip e.1 content
      some { name := e.1, size := e.2.bytes, gzipSize := gzipSize,
             normalized := normalizeAssetName e.1 })
  let chunks : List Chunk := outputEntries.filterMap (fun e =>
    if hasSuffix e.1 ".map" then none
    else
      -- `chunkIdMap.get(outputPath)!`: the key was inserted above, so the
      -- non-null assertion cannot fail; `getD ""` is its total model.
      let uniqueId := (mapGet chunkIdMap e.1).getD ""
      let dynamicImports := e.2.imports.filterMap (fun imp =>
        if imp.kind == "dynamic-import" && !imp.external then some imp.path else none)
      -- `output.entryPoint ? basename(entryPoint)... : basename(outputPath)...`:
      -- the ternary tests truthiness, so an empty-string entry point falls
      -- through to the output path.
      let name := match e.2.entryPoint with
        | some ep => if ep = "" then stripFinalExt (basename e.1)
                     else stripFinalExt (basename ep)
        | none => stripFinalExt (basename e.1)
      -- `entry`/`initial` use `output.entryPoint !== undefined` instead.
      some { id := e.1, uniqueId := uniqueId,
             entry := e.2.entryPoint.isSome, initial := e.2.entryPoint.isSome,
             names := [name], files := [e.1], dynamicImports := dynamicImports })
  let modules : List Module := metafile.inputs.map (fun ie =>
    let chunkUniqueIds := outputEntries.filterMap (fun e =>
      if hasSuffix e.1 ".map" then none
      else if e.2.inputs.any (fun kv => kv.1 == ie.1) then
        -- `if (uid) push(uid)`: truthiness also drops an empty string.
        match mapGet chunkIdMap e.1 with
        | some uid => if uid = "" then none else some uid
        | none => none
      else none)
    { name := ie.1, size := ie.2.bytes, chunkUniqueIds := chunkUniqueIds })
  { version := "3", bundleName := options.bundleName, bundler := options.bundler,
    builtAt := options.builtAt.getD now, duration := options.duration,
    assets := assets, chunks := chunks, modules := modules,
    plugin := { name := "metafile-codecov-bundle", version := pluginVersion } }

/-! ### Generic helper lemmas -/

theorem findIdx_of_no_match (p : Char → Bool) (l : List Char)
    (h : ∀ c ∈ l, p c = false) : l.findIdx p = l.length := by
  induction l with
  | nil => rfl
  | cons c t ih =>
    rw [List.findIdx_cons, h c (List.mem_cons_self c t)]
    simp [ih (fun x hx => h x (List.mem_cons_of_mem c hx))]

theorem findIdx_append_first (p : Char → Bool) (a : List Char) (x : Char)
    (b : List Char) (ha : ∀ c ∈ a, p c = false) (hx : p x = true) :
    (a ++ x :: b).findIdx p = a.length := by
  induction a with
  | nil => simp [List.findIdx_cons, hx]
  | cons c t ih =>
    rw [List.cons_append, List.findIdx_cons, ha c (List.mem_cons_self c t)]
    simp [ih (fun y hy => ha y (List.mem_cons_of_mem c hy))]

theorem filterMap_if_none (l : List α) (P : α → Bool) (h : α → β) :
    l.filterMap (fun e => if P e then none else some (h e)) =
      (l.filter (fun e => !P e)).map h := by
  induction l with
  | nil => rfl
  | cons c t ih =>
    by_cases hc : P c
    · simp [List.filterMap_cons, List.filter_cons, hc, ih]
    · simp [List.filterMap_cons, List.filter_cons, hc, ih]

theorem filterMap_if_some (l : List α) (Q : α → Bool) (g : α → β) :
    l.filterMap (fun e => if Q e then some (g e) else none) =
      (l.filter Q).map g := by
  induction l with
  | nil => rfl
  | cons c t ih =>
    by_cases hc : Q c
    · simp [List.filterMap_cons, List.filter_cons, hc, ih]
    · simp [List.filterMap_cons, List.filter_cons, hc, ih]

/-! ### C8: `encodeSlug` -/

theorem encodeSlug_eq (s : String) :
    encodeSlug s =
      (if (s.data.findIdx (fun c => c == '/')) = s.data.length then s ++ "::::"
       else String.mk (s.data.take (s.data.findIdx (fun c => c == '/'))) ++ ":::" ++
         String.mk (s.data.drop ((s.data.findIdx (fun c => c == '/')) + 1)) ++ "::::") := rfl

/-- C8: for every input string, `encodeSlug` splits on the first `/` only:
with no `/` the result is the whole string followed by `"::::"`; otherwise
it is the part before the first `/`, then `":::"`, then the remainder after
the first `/`, then `"::::"`. -/
theorem encodeSlug_spec :
    (∀ s : String, (∀ c ∈ s.data, (c == '/') = false) →
      encodeSlug s = s ++ "::::") ∧
    (∀ owner repo : String, (∀ c ∈ owner.data, (c == '/') = false) →
      encodeSlug (owner ++ "/" ++ repo) = owner ++ ":::" ++ repo ++ "::::") := by
  constructor
  · intro s h
    rw [encodeSlug_eq, findIdx_of_no_match _ _ h]
    simp
  · intro a b h
    have hdata : (a ++ "/" ++ b).data = a.data ++ '/' :: b.data := by
      rw [String.data_append, String.data_append]
      simp
    rw [encodeSlug_eq, hdata, findIdx_append_first _ _ '/' _ h (by decide)]
    have hlen : a.data.length ≠ (a.data ++ '/' :: b.data).length := by
      simp
    rw [if_neg hlen, List.take_left a.data ('/' :: b.data)]
    have hdrop : (a.data ++ '/' :: b.data).drop (a.data.length + 1) = b.data := by
      have hsplit : a.data ++ '/' :: b.data = (a.data ++ ['/']) ++ b.data := by simp
      have hl : a.data.length + 1 = (a.data ++ ['/']).length := by simp
      rw [hsplit, hl, List.drop_left]
    rw [hdrop]

/-- Witness for C8 at concrete inputs. -/
theorem encodeSlug_spec_witness :
    encodeSlug "monorepo" = "monorepo" ++ "::::" ∧
    encodeSlug ("owner" ++ "/" ++ "repo") = "owner" ++ ":::" ++ "repo" ++ "::::" :=
  ⟨encodeSlug_spec.1 "monorepo" (by decide),
   encodeSlug_spec.2 "owner" "repo" (by decide)⟩

/-! ### C7: `getGzipSize` -/

theorem getGzipSize_eq (gzip : List Nat → List Nat) (fileName : String)
    (content : List Nat) :
    getGzipSize gzip fileName content =
      (if isCompressibleName fileName then some ((gzip content).length) else none) := by
  unfold getGzipSize
  by_cases h : isCompressibleName fileName <;> simp [h]

/-- C7: `getGzipSize` returns `none` exactly when the file name does not end
in a dot followed by one of the allow-listed extensions, and for allow-listed
names it returns the byte length of the gzip encoder's output, which is
positive whenever the encoder never produces empty output (a gzip stream
always contains the 10-byte header and 8-byte trailer), even for empty
content; it is a total function. -/
theorem getGzipSize_spec (gzip : List Nat → List Nat) (fileName : String)
    (content : List Nat) (hgzip : ∀ c, 0 < (gzip c).length) :
    (getGzipSize gzip fileName content = none ↔
      ∀ ext ∈ COMPRESSIBLE_EXTS, hasSuffix fileName ("." ++ ext) = false) ∧
    (∀ n, getGzipSize gzip fileName content = some n →
      n = (gzip content).length ∧ 0 < n) := by
  have hiff : isCompressibleName fileName = true ↔
      ∃ ext ∈ COMPRESSIBLE_EXTS, hasSuffix fileName ("." ++ ext) = true := by
    simp [isCompressibleName, List.any_eq_true]
  constructor
  · rw [getGzipSize_eq]
    by_cases h : isCompressibleName fileName
    · rw [if_pos h]
      constructor
      · intro hc
        exact absurd hc (by simp)
      · intro hall
        obtain ⟨ext, hmem, hsuf⟩ := hiff.mp h
        rw [hall ext hmem] at hsuf
        cases hsuf
    · rw [if_neg h]
      constructor
      · intro _ ext hmem
        cases hb : hasSuffix fileName ("." ++ ext)
        · rfl
        · exact absurd (hiff.mpr ⟨ext, hmem, hb⟩) h
      · intro _
        rfl
  · intro n hn
    rw [getGzipSize_eq] at hn
    by_cases h : isCompressibleName fileName
    · rw [if_pos h] at hn
      cases hn
      exact ⟨rfl, hgzip content⟩
    · rw [if_neg h] at hn
      cases hn

/-- Witness for C7 at a concrete encoder and inputs. -/
theorem getGzipSize_spec_witness :
    (getGzipSize (fun c => List.replicate 18 0 ++ c) "bundle.js" [] = none ↔
      ∀ ext ∈ COMPRESSIBLE_EXTS, hasSuffix "bundle.js" ("." ++ ext) = false) ∧
    (∀ n, getGzipSize (fun c => List.replicate 18 0 ++ c) "bundle.js" [] = some n →
      n = (List.replicate 18 (0 : Nat) ++ ([] : List Nat)).length ∧ 0 < n) :=
  getGzipSize_spec (fun c => List.replicate 18 0 ++ c) "bundle.js" []
    (fun c => by simp)

/-! ### Retry behaviour of the upload client -/

theorem fetchWithRetry_eq (fetcher : Nat → HttpResponse) (delayMs calls retries : Nat) :
    fetchWithRetry fetcher delayMs calls retries =
      (if (fetcher calls).ok then (Except.ok (fetcher calls), calls + 1)
       else if retries ≤ 1 then
         (Except.error (requestFailedMsg (fetcher calls)), calls + 1)
       else fetchWithRetry fetcher delayMs (calls + 1) (retries - 1)) := by
  rw [fetchWithRetry]
  by_cases hok : (fetcher calls).ok
  · simp [hok]
  · by_cases hr : retries ≤ 1 <;> simp [hok, hr]

theorem fetchWithRetry_bounds (fetcher : Nat → HttpResponse) (delayMs : Nat) :
    ∀ retries calls, calls < (fetchWithRetry fetcher delayMs calls retries).2 ∧
      (fetchWithRetry fetcher delayMs calls retries).2 ≤ calls + max retries 1 := by
  intro retries
  induction retries using Nat.strong_induction_on with
  | _ r ih =>
    intro calls
    rw [fetchWithRetry_eq]
    by_cases hok : (fetcher calls).ok
    · simp only [hok, if_true]
      constructor
      · exact Nat.lt_succ_self calls
      · have : 1 ≤ max r 1 := le_max_right r 1
        omega
    · simp only [hok, Bool.false_eq_true, if_false]
      by_cases hr : r ≤ 1
      · simp only [hr, if_true]
        constructor
        · exact Nat.lt_succ_self calls
        · have : 1 ≤ max r 1 := le_max_right r 1
          omega
      · simp only [hr, if_false]
        have h := ih (r - 1) (by omega) (calls + 1)
        have hm1 : max (r - 1) 1 = r - 1 := Nat.max_eq_left (by omega)
        have hm2 : max r 1 = r := Nat.max_eq_left (by omega)
        rw [hm1] at h
        rw [hm2]
        omega

theorem fetchWithRetry_first_ok (fetcher : Nat → HttpResponse) (delayMs calls k : Nat)
    (hk : k < 3) (hok : (fetcher (calls + k)).ok = true)
    (hfail : ∀ i < k, (fetcher (calls + i)).ok = false) :
    fetchWithRetry fetcher delayMs calls 3 =
      (Except.ok (fetcher (calls + k)), calls + k + 1) := by
  interval_cases k
  · rw [fetchWithRetry_eq]
    simp only [Nat.add_zero] at hok
    simp [hok]
  · have h0 : (fetcher calls).ok = false := by simpa using hfail 0 (by omega)
    rw [fetchWithRetry_eq]
    simp only [h0, Bool.false_eq_true, if_false]
    norm_num
    rw [fetchWithRetry_eq]
    simp [hok]
  · have h0 : (fetcher calls).ok = false := by simpa using hfail 0 (by omega)
    have h1 : (fetcher (calls + 1)).ok = false := hfail 1 (by omega)
    rw [fetchWithRetry_eq]
    simp only [h0, Bool.false_eq_true, if_false]
    norm_num
    rw [fetchWithRetry_eq]
    simp only [h1, Bool.false_eq_true, if_false]
    norm_num
    rw [fetchWithRetry_eq]
    have : calls + 1 + 1 = calls + 2 := by omega
    rw [this]
    simp [hok]

theorem fetchWithRetry_all_fail (fetcher : Nat → HttpResponse) (delayMs calls : Nat)
    (hfail : ∀ i < 3, (fetcher (calls + i)).ok = false) :
    fetchWithRetry fetcher delayMs calls 3 =
      (Except.error (requestFailedMsg (fetcher (calls + 2))), calls + 3) := by
  have h0 : (fetcher calls).ok = false := by simpa using hfail 0 (by omega)
  have h1 : (fetcher (calls + 1)).ok = false := hfail 1 (by omega)
  have h2 : (fetcher (calls + 2)).ok = false := hfail 2 (by omega)
  rw [fetchWithRetry_eq]
  simp only [h0, Bool.false_eq_true, if_false]
  norm_num
  rw [fetchWithRetry_eq]
  simp only [h1, Bool.false_eq_true, if_false]
  norm_num
  rw [fetchWithRetry_eq]
  have e2 : calls + 1 + 1 = calls + 2 := by omega
  rw [e2]
  simp only [h2, Bool.false_eq_true, if_false]
  norm_num

theorem getPresignedUrl_eq (apiUrl : String) (serviceParams : GitHubActionsParams)
    (oidcToken : String) (fetcher : Nat → HttpResponse) (delayMs calls retries : Nat) :
    getPresignedUrl apiUrl serviceParams oidcToken fetcher delayMs calls retries =
      (match fetchWithRetry fetcher delayMs calls retries with
       | (Except.error e, c) => (Except.error e, c)
       | (Except.ok resp, c) =>
         match resp.jsonUrl with
         | none => (Except.error missingUrlMsg, c)
         | some url =>
           if url = "" then (Except.error missingUrlMsg, c) else (Except.ok url, c)) := rfl

/-- C4: each upload phase attempts the underlying request at most 3 times
(`MAX_RETRIES`); a non-success status before the last attempt is retried
(so the first success at attempt `k` consumes exactly `k + 1` calls); a
non-success status on the final attempt raises the request failure carrying
the last response's status code and status text; and a phase-1 response
with successful status but missing `url` field fails immediately after that
single response, issuing no further request.  (The fixed delay between
attempts is threaded as `delayMs` but the act of waiting is outside this
pure model.) -/
theorem upload_retry_policy (fetcher : Nat → HttpResponse) (delayMs calls : Nat)
    (apiUrl : String) (serviceParams : GitHubActionsParams) (oidcToken : String) :
    (calls < (fetchWithRetry fetcher delayMs calls MAX_RETRIES).2 ∧
      (fetchWithRetry fetcher delayMs calls MAX_RETRIES).2 ≤ calls + 3) ∧
    (∀ k < 3, (fetcher (calls + k)).ok = true →
      (∀ i < k, (fetcher (calls + i)).ok = false) →
      fetchWithRetry fetcher delayMs calls MAX_RETRIES =
        (Except.ok (fetcher (calls + k)), calls + k + 1)) ∧
    ((∀ i < 3, (fetcher (calls + i)).ok = false) →
      fetchWithRetry fetcher delayMs calls MAX_RETRIES =
        (Except.error (requestFailedMsg (fetcher (calls + 2))), calls + 3)) ∧
    (∀ k < 3, (fetcher (calls + k)).ok = true →
      (∀ i < k, (fetcher (calls + i)).ok = false) →
      (fetcher (calls + k)).jsonUrl = none →
      getPresignedUrl apiUrl serviceParams oidcToken fetcher delayMs calls MAX_RETRIES =
        (Except.error missingUrlMsg, calls + k + 1)) := by
  refine ⟨?_, ?_, ?_, ?_⟩
  · have h := fetchWithRetry_bounds fetcher delayMs MAX_RETRIES calls
    exact ⟨h.1, by simpa [MAX_RETRIES] using h.2⟩
  · intro k hk hok hfail
    exact fetchWithRetry_first_ok fetcher delayMs calls k hk hok hfail
  · intro hfail
    exact fetchWithRetry_all_fail fetcher delayMs calls hfail
  · intro k hk hok hfail hurl
    rw [getPresignedUrl_eq, show MAX_RETRIES = 3 from rfl,
      fetchWithRetry_first_ok fetcher delayMs calls k hk hok hfail]
    simp [hurl]

/-- Witness for C4: a constantly failing fetcher consumes exactly 3 calls
and surfaces the final status, and an ok response without `url` fails after
one call. -/
theorem upload_retry_policy_witness :
    fetchWithRetry (fun _ => ⟨403, "Forbidden", none⟩) 0 0 MAX_RETRIES =
      (Except.error (requestFailedMsg ⟨403, "Forbidden", none⟩), 0 + 3) ∧
    getPresignedUrl CODECOV_API_URL ⟨"", "", "", "github-actions", "", "", "", ""⟩ ""
        (fun _ => ⟨200, "OK", none⟩) 0 0 MAX_RETRIES =
      (Except.error missingUrlMsg, 0 + 0 + 1) :=
  ⟨(upload_retry_policy (fun _ => ⟨403, "Forbidden", none⟩) 0 0 CODECOV_API_URL
      ⟨"", "", "", "github-actions", "", "", "", ""⟩ "").2.2.1
      (fun i _ => by decide),
   (upload_retry_policy (fun _ => ⟨200, "OK", none⟩) 0 0 CODECOV_API_URL
      ⟨"", "", "", "github-actions", "", "", "", ""⟩ "").2.2.2 0 (by decide)
      (by decide) (fun i hi => by omega) rfl⟩

theorem uploadBundleStats_eq (fetcher : Nat → HttpResponse) (options : UploadOptions) :
    uploadBundleStats fetcher options =
      (match getPresignedUrl (options.apiUrl.getD CODECOV_API_URL) options.serviceParams
          options.oidcToken fetcher (options.retryDelayMs.getD RETRY_DELAY_MS) 0 MAX_RETRIES with
       | (Except.error e, c) => ({ success := false, presignedUrl := none, error := some e }, c)
       | (Except.ok url, c) =>
         match putPayload url options.payload fetcher (options.retryDelayMs.getD RETRY_DELAY_MS)
             c MAX_RETRIES with
         | (Except.error e, c') => ({ success := false, presignedUrl := none, error := some e }, c')
         | (Except.ok _, c') => ({ success := true, presignedUrl := some url, error := none }, c')) :=
  rfl

/-- C5: `uploadBundleStats` never propagates a failure: for every option
record and every sequence of fetch responses it returns a structured result,
with `success = false` and an error message whenever either phase failed,
and `success = true` carrying exactly the phase-1 presigned URL when both
phases succeeded. -/
theorem uploadBundleStats_structured (fetcher : Nat → HttpResponse)
    (options : UploadOptions) :
    (∃ e, (uploadBundleStats fetcher options).1 =
      { success := false, presignedUrl := none, error := some e }) ∨
    (∃ url c c',
      getPresignedUrl (options.apiUrl.getD CODECOV_API_URL) options.serviceParams
        options.oidcToken fetcher (options.retryDelayMs.getD RETRY_DELAY_MS) 0 MAX_RETRIES
        = (Except.ok url, c) ∧
      putPayload url options.payload fetcher (options.retryDelayMs.getD RETRY_DELAY_MS)
        c MAX_RETRIES = (Except.ok (), c') ∧
      (uploadBundleStats fetcher options).1 =
        { success := true, presignedUrl := some url, error := none }) := by
  rcases hgp : getPresignedUrl (options.apiUrl.getD CODECOV_API_URL) options.serviceParams
      options.oidcToken fetcher (options.retryDelayMs.getD RETRY_DELAY_MS) 0 MAX_RETRIES
    with ⟨res, c⟩
  cases res with
  | error e =>
    refine Or.inl ⟨e, ?_⟩
    rw [uploadBundleStats_eq, hgp]
  | ok url =>
    rcases hpp : putPayload url options.payload fetcher
        (options.retryDelayMs.getD RETRY_DELAY_MS) c MAX_RETRIES with ⟨res2, c'⟩
    cases res2 with
    | error e =>
      refine Or.inl ⟨e, ?_⟩
      rw [uploadBundleStats_eq, hgp]
      simp [hpp]
    | ok u =>
      cases u
      refine Or.inr ⟨url, c, c', rfl, hpp, ?_⟩
      rw [uploadBundleStats_eq, hgp]
      simp [hpp]

/-! ### Transform helper lemmas -/

theorem transform_assets_def (readFile : String → Option (List Nat))
    (gzip : List Nat → List Nat) (pluginVersion : String) (now : Nat)
    (metafile : Metafile) (options : TransformOptions) :
    (transformMetafile readFile gzip pluginVersion now metafile options).assets =
      metafile.outputs.filterMap (fun e =>
        if hasSuffix e.1 ".map" then none
        else
          some { name := e.1, size := e.2.bytes,
                 gzipSize :=
                   match (match options.outputDir with
                          | some d => if d = "" then none else some d
                          | none => none) with
                   | none => none
                   | some dir =>
                     match readFile (joinPath dir (basename e.1)) with
                     | none => none
                     | some content => getGzipSize gzip e.1 content,
                 normalized := normalizeAssetName e.1 }) := rfl

theorem transform_chunks_def (readFile : String → Option (List Nat))
    (gzip : List Nat → List Nat) (pluginVersion : String) (now : Nat)
    (metafile : Metafile) (options : TransformOptions) :
    (transformMetafile readFile gzip pluginVersion now metafile options).chunks =
      metafile.outputs.filterMap (fun e =>
        if hasSuffix e.1 ".map" then none
        else
          some { id := e.1,
                 uniqueId := (mapGet (chunkIdMapOf metafile.outputs) e.1).getD "",
                 entry := e.2.entryPoint.isSome, initial := e.2.entryPoint.isSome,
                 names := [match e.2.entryPoint with
                           | some ep => if ep = "" then stripFinalExt (basename e.1)
                                        else stripFinalExt (basename ep)
                           | none => stripFinalExt (basename e.1)],
                 files := [e.1],
                 dynamicImports := e.2.imports.filterMap (fun imp =>
                   if imp.kind == "dynamic-import" && !imp.external then some imp.path
                   else none) }) := rfl

theorem transform_modules_def (readFile : String → Option (List Nat))
    (gzip : List Nat → List Nat) (pluginVersion : String) (now : Nat)
    (metafile : Metafile) (options : TransformOptions) :
    (transformMetafile readFile gzip pluginVersion now metafile options).modules =
      metafile.inputs.map (fun ie =>
        { name := ie.1, size := ie.2.bytes,
          chunkUniqueIds := metafile.outputs.filterMap (fun e =>
            if hasSuffix e.1 ".map" then none
            else if e.2.inputs.any (fun kv => kv.1 == ie.1) then
              match mapGet (chunkIdMapOf metafile.outputs) e.1 with
              | some uid => if uid = "" then none else some uid
              | none => none
            else none) }) := rfl

theorem mapGet_eq_of_nodup (m : List (String × String)) (k v : String)
    (hnd : (m.map Prod.fst).Nodup) (hmem : (k, v) ∈ m) : mapGet m k = some v := by
  induction m with
  | nil => cases hmem
  | cons e rest ih =>
    simp only [List.map_cons, List.nodup_cons] at hnd
    unfold mapGet
    rw [List.reverse_cons, List.find?_append]
    rcases List.mem_cons.mp hmem with heq | hmem'
    · have hek : e.1 = k := by rw [← heq]
      have hnone : List.find? (fun x => x.1 == k) rest.reverse = none := by
        rw [List.find?_eq_none]
        intro x hx
        simp only [beq_iff_eq]
        intro hxk
        apply hnd.1
        rw [hek, ← hxk]
        exact List.mem_map_of_mem Prod.fst (List.mem_reverse.mp hx)
      rw [hnone, ← heq]
      simp
    · have hrec := ih hnd.2 hmem'
      unfold mapGet at hrec
      rcases hfind : List.find? (fun x => x.1 == k) rest.reverse with _ | p
      · rw [hfind] at hrec
        cases hrec
      · rw [hfind] at hrec
        simp only [Option.map_some'] at hrec
        rw [hfind]
        simp [Option.or, hrec]

theorem chunkIdMap_keys (l : List (String × MetafileOutput)) :
    (chunkIdMapOf l).map Prod.fst = l.map Prod.fst := by
  unfold chunkIdMapOf
  rw [List.map_map]
  have h1 : (Prod.fst ∘ fun p : Nat × String × MetafileOutput =>
      (p.2.1, toString p.1 ++ "-" ++ p.2.1)) = (Prod.fst ∘ Prod.snd) := rfl
  rw [h1, ← List.map_map, List.enum_map_snd]

theorem mapGet_chunkIdMap (l : List (String × MetafileOutput))
    (hnd : (l.map Prod.fst).Nodup) (p : Nat × String × MetafileOutput)
    (hp : p ∈ l.enum) :
    mapGet (chunkIdMapOf l) p.2.1 = some (toString p.1 ++ "-" ++ p.2.1) := by
  apply mapGet_eq_of_nodup
  · rw [chunkIdMap_keys]
    exact hnd
  · exact List.mem_map_of_mem _ hp

theorem uid_ne_empty (i : Nat) (path : String) : toString i ++ "-" ++ path ≠ "" := by
  intro h
  have hl := congrArg String.length h
  rw [String.length_append, String.length_append] at hl
  have h1 : ("-" : String).length = 1 := rfl
  have h0 : ("" : String).length = 0 := rfl
  rw [h1, h0] at hl
  omega

theorem filterMap_enum_form (l : List (String × MetafileOutput))
    (f : String × MetafileOutput → Option β)
    (g : Nat × String × MetafileOutput → Option β)
    (hfg : ∀ p ∈ l.enum, f p.2 = g p) :
    l.filterMap f = l.enum.filterMap g := by
  conv_lhs => rw [← List.enum_map_snd l]
  rw [List.filterMap_map]
  exact List.filterMap_congr hfg

/-! ### C1: uniqueIds consume absolute ordinals; map outputs are skipped -/

/-- C1: every output's uniqueId is its zero-based position among all outputs
followed by `-` and the output path; `.map` outputs produce neither Asset
nor Chunk yet still consume their ordinal, so the emitted chunks' uniqueIds
are exactly the enum-filtered ordinals over the full outputs enumeration. -/
theorem transform_uniqueIds (readFile : String → Option (List Nat))
    (gzip : List Nat → List Nat) (pluginVersion : String) (now : Nat)
    (metafile : Metafile) (options : TransformOptions)
    (hnd : (metafile.outputs.map Prod.fst).Nodup) :
    ((transformMetafile readFile gzip pluginVersion now metafile options).chunks.map
        Chunk.uniqueId =
      metafile.outputs.enum.filterMap (fun p =>
        if hasSuffix p.2.1 ".map" then none
        else some (toString p.1 ++ "-" ++ p.2.1))) ∧
    (∀ a ∈ (transformMetafile readFile gzip pluginVersion now metafile options).assets,
      hasSuffix a.name ".map" = false) ∧
    (∀ c ∈ (transformMetafile readFile gzip pluginVersion now metafile options).chunks,
      hasSuffix c.id ".map" = false) := by
  refine ⟨?_, ?_, ?_⟩
  · rw [transform_chunks_def, List.map_filterMap]
    apply filterMap_enum_form
    intro p hp
    by_cases hm : hasSuffix p.2.1 ".map"
    · simp [hm]
    · simp only [hm, Bool.false_eq_true, if_false, Option.map_some']
      rw [mapGet_chunkIdMap metafile.outputs hnd p hp]
      rfl
  · intro a ha
    rw [transform_assets_def] at ha
    rcases List.mem_filterMap.mp ha with ⟨e, hmem, he⟩
    by_cases hm : hasSuffix e.1 ".map"
    · rw [if_pos hm] at he
      cases he
    · rw [if_neg hm] at he
      cases he
      simpa using hm
  · intro c hc
    rw [transform_chunks_def] at hc
    rcases List.mem_filterMap.mp hc with ⟨e, hmem, he⟩
    by_cases hm : hasSuffix e.1 ".map"
    · rw [if_pos hm] at he
      cases he
    · rw [if_neg hm] at he
      cases he
      simpa using hm

/-- The multi-output metafile used by the repository's tests (entry chunk,
lazy chunk, and a skipped source map), reused as witness input. -/
def sampleMetafile : Metafile :=
  { inputs := [("src/main.tsx",
                { bytes := 200,
                  imports := [{ path := "src/lazy.tsx", kind := "dynamic-import" }] }),
               ("src/lazy.tsx", { bytes := 100, imports := [] })],
    outputs := [
      ("dist/main-abc12345.js",
       { bytes := 45000, inputs := [("src/main.tsx", 180)],
         imports := [{ path := "dist/lazy-def67890.js", kind := "dynamic-import" }],
         exports := [], entryPoint := some "src/main.tsx" }),
      ("dist/lazy-def67890.js",
       { bytes := 800, inputs := [("src/lazy.tsx", 750)],
         imports := [], exports := ["default"] }),
      ("dist/main-abc12345.js.map",
       { bytes := 10000, inputs := [], imports := [], exports := [] })] }

/-- Witness for C1 on the sample metafile. -/
theorem transform_uniqueIds_witness :
    (transformMetafile (fun _ => none) (fun _ => []) "1.0.0" 0 sampleMetafile
        { bundleName := "test" }).chunks.map Chunk.uniqueId =
      sampleMetafile.outputs.enum.filterMap (fun p =>
        if hasSuffix p.2.1 ".map" then none
        else some (toString p.1 ++ "-" ++ p.2.1)) :=
  (transform_uniqueIds (fun _ => none) (fun _ => []) "1.0.0" 0 sampleMetafile
    { bundleName := "test" } (by decide)).1

/-! ### C2: one Module per input with output-order chunk links -/

/-- C2: `transformMetafile` emits exactly one Module per manifest input,
with the input path as name, the input's byte size, and as chunk links the
uniqueId of every non-map output whose `inputs` mapping contains the input
path as a key, in output-enumeration order. -/
theorem transform_modules (readFile : String → Option (List Nat))
    (gzip : List Nat → List Nat) (pluginVersion : String) (now : Nat)
    (metafile : Metafile) (options : TransformOptions)
    (hnd : (metafile.outputs.map Prod.fst).Nodup) :
    ((transformMetafile readFile gzip pluginVersion now metafile options).modules.length =
      metafile.inputs.length) ∧
    (∀ i (hi : i < metafile.inputs.length)
        (hi' : i < (transformMetafile readFile gzip pluginVersion now metafile
          options).modules.length),
      ((transformMetafile readFile gzip pluginVersion now metafile options).modules.get
          ⟨i, hi'⟩).name = (metafile.inputs.get ⟨i, hi⟩).1 ∧
      ((transformMetafile readFile gzip pluginVersion now metafile options).modules.get
          ⟨i, hi'⟩).size = (metafile.inputs.get ⟨i, hi⟩).2.bytes ∧
      ((transformMetafile readFile gzip pluginVersion now metafile options).modules.get
          ⟨i, hi'⟩).chunkUniqueIds =
        metafile.outputs.enum.filterMap (fun p =>
          if !hasSuffix p.2.1 ".map" &&
              p.2.2.inputs.any (fun kv => kv.1 == (metafile.inputs.get ⟨i, hi⟩).1) then
            some (toString p.1 ++ "-" ++ p.2.1)
          else none)) := by
  constructor
  · rw [transform_modules_def]
    exact List.length_map metafile.inputs _
  · intro i hi hi'
    have hget : (transformMetafile readFile gzip pluginVersion now metafile
        options).modules.get ⟨i, hi'⟩ =
        { name := (metafile.inputs.get ⟨i, hi⟩).1,
          size := (metafile.inputs.get ⟨i, hi⟩).2.bytes,
          chunkUniqueIds := metafile.outputs.filterMap (fun e =>
            if hasSuffix e.1 ".map" then none
            else if e.2.inputs.any (fun kv => kv.1 == (metafile.inputs.get ⟨i, hi⟩).1) then
              match mapGet (chunkIdMapOf metafile.outputs) e.1 with
              | some uid => if uid = "" then none else some uid
              | none => none
            else none) } := by
      have := transform_modules_def readFile gzip pluginVersion now metafile options
      rw [List.get_eq_getElem, List.get_eq_getElem]
      simp only [this, List.getElem_map]
    refine ⟨by rw [hget], by rw [hget], ?_⟩
    rw [hget]
    generalize (metafile.inputs.get ⟨i, hi⟩).1 = key
    apply filterMap_enum_form
    intro p hp
    by_cases hm : hasSuffix p.2.1 ".map"
    · simp [hm]
    · by_cases hin : p.2.2.inputs.any (fun kv => kv.1 == key)
      · simp only [hm, Bool.false_eq_true, if_false, hin, if_true,
          Bool.not_false, Bool.true_and]
        rw [mapGet_chunkIdMap metafile.outputs hnd p hp]
        simp [uid_ne_empty p.1 p.2.1]
      · simp [hm, hin]

/-- Witness for C2 on the sample metafile at index 0. -/
theorem transform_modules_witness :
    ((transformMetafile (fun _ => none) (fun _ => []) "1.0.0" 0 sampleMetafile
        { bundleName := "test" }).modules.length = sampleMetafile.inputs.length) ∧
    ((transformMetafile (fun _ => none) (fun _ => []) "1.0.0" 0 sampleMetafile
        { bundleName := "test" }).modules.get ⟨0, by decide⟩).chunkUniqueIds =
      sampleMetafile.outputs.enum.filterMap (fun p =>
        if !hasSuffix p.2.1 ".map" &&
            p.2.2.inputs.any (fun kv => kv.1 == (sampleMetafile.inputs.get ⟨0, by decide⟩).1) then
          some (toString p.1 ++ "-" ++ p.2.1)
        else none) :=
  have h := transform_modules (fun _ => none) (fun _ => []) "1.0.0" 0 sampleMetafile
    { bundleName := "test" } (by decide)
  ⟨h.1, (h.2 0 (by decide) (by decide)).2.2⟩

/-! ### C6: the Chunk emitted for each non-map output -/

/-- Stated from the amended claim: the Chunk for the output at zero-based
position `i` among all outputs.  `entry`/`initial` reflect the mere presence
of `entryPoint` (`!== undefined`), while `names` falls back to the output
path whenever `entryPoint` is absent or the empty string (the source's
truthiness test), and `dynamicImports` keeps, in order, the paths of the
imports whose kind is `"dynamic-import"` and whose `external` flag is not
set. -/
def specChunkAt (i : Nat) (outputPath : String) (output : MetafileOutput) : Chunk :=
  { id := outputPath
    uniqueId := toString i ++ "-" ++ outputPath
    entry := output.entryPoint.isSome
    initial := output.entryPoint.isSome
    names := [match output.entryPoint with
              | some ep => if ep = "" then stripFinalExt (basename outputPath)
                           else stripFinalExt (basename ep)
              | none => stripFinalExt (basename outputPath)]
    files := [outputPath]
    dynamicImports := (output.imports.filter (fun imp =>
        imp.kind == "dynamic-import" && !imp.external)).map ImportEntry.path }

/-- C6 (amended): for every non-map output the emitted Chunk has id the
output path, `entry` and `initial` both equal to `entryPoint !== undefined`,
files the singleton output path, names the singleton base name (extension
stripped) of the entry point when it is present and non-empty and of the
output path otherwise, and dynamicImports the paths of exactly the
non-external `"dynamic-import"` imports in order. -/
theorem transform_chunks_spec (readFile : String → Option (List Nat))
    (gzip : List Nat → List Nat) (pluginVersion : String) (now : Nat)
    (metafile : Metafile) (options : TransformOptions)
    (hnd : (metafile.outputs.map Prod.fst).Nodup) :
    (transformMetafile readFile gzip pluginVersion now metafile options).chunks =
      metafile.outputs.enum.filterMap (fun p =>
        if hasSuffix p.2.1 ".map" then none
        else some (specChunkAt p.1 p.2.1 p.2.2)) := by
  rw [transform_chunks_def]
  apply filterMap_enum_form
  intro p hp
  by_cases hm : hasSuffix p.2.1 ".map"
  · simp [hm]
  · simp only [hm, Bool.false_eq_true, if_false, Option.some.injEq]
    unfold specChunkAt
    rw [mapGet_chunkIdMap metafile.outputs hnd p hp]
    rw [filterMap_if_some p.2.2.imports
      (fun imp => imp.kind == "dynamic-import" && !imp.external) ImportEntry.path]
    rfl

/-- Counterexample to C6 as stated: with `entryPoint` present but equal to
the empty string, the chunk's `entry` flag is `true` (so the entry point
counts as set) while `names` is derived from the output path, not from the
entry point's base name. -/
theorem transform_chunks_counterexample :
    ((transformMetafile (fun _ => none) (fun _ => []) "1.0.0" 0
        { inputs := [],
          outputs := [("dist/a.js",
            { bytes := 1, inputs := [], imports := [], exports := [],
              entryPoint := some "" })] }
        { bundleName := "b" }).chunks.map Chunk.entry = [true]) ∧
    ((transformMetafile (fun _ => none) (fun _ => []) "1.0.0" 0
        { inputs := [],
          outputs := [("dist/a.js",
            { bytes := 1, inputs := [], imports := [], exports := [],
              entryPoint := some "" })] }
        { bundleName := "b" }).chunks.map Chunk.names = [["a"]]) ∧
    ["a"] ≠ [stripFinalExt (basename "")] :=
  ⟨rfl, rfl, by decide⟩

/-- Witness for C6 (amended) on the sample metafile. -/
theorem transform_chunks_spec_witness :
    (transformMetafile (fun _ => none) (fun _ => []) "1.0.0" 0 sampleMetafile
        { bundleName := "test" }).chunks =
      sampleMetafile.outputs.enum.filterMap (fun p =>
        if hasSuffix p.2.1 ".map" then none
        else some (specChunkAt p.1 p.2.1 p.2.2)) :=
  transform_chunks_spec (fun _ => none) (fun _ => []) "1.0.0" 0 sampleMetafile
    { bundleName := "test" } (by decide)

/-! ### C10: payload invariants -/

/-- C10: in every payload the assets and chunks lists have equal length and
are aligned (`assets[i].name = chunks[i].id`, the chunk's `files` being that
singleton), and every chunk uniqueId referenced by a module belongs to an
emitted chunk — never to a skipped map output. -/
theorem transform_invariants (readFile : String → Option (List Nat))
    (gzip : List Nat → List Nat) (pluginVersion : String) (now : Nat)
    (metafile : Metafile) (options : TransformOptions) :
    ((transformMetafile readFile gzip pluginVersion now metafile options).assets.length =
      (transformMetafile readFile gzip pluginVersion now metafile options).chunks.length) ∧
    (∀ i (ha : i < (transformMetafile readFile gzip pluginVersion now metafile
          options).assets.length)
        (hc : i < (transformMetafile readFile gzip pluginVersion now metafile
          options).chunks.length),
      ((transformMetafile readFile gzip pluginVersion now metafile options).assets.get
          ⟨i, ha⟩).name =
        ((transformMetafile readFile gzip pluginVersion now metafile options).chunks.get
          ⟨i, hc⟩).id ∧
      ((transformMetafile readFile gzip pluginVersion now metafile options).chunks.get
          ⟨i, hc⟩).files =
        [((transformMetafile readFile gzip pluginVersion now metafile options).assets.get
          ⟨i, ha⟩).name]) ∧
    (∀ m ∈ (transformMetafile readFile gzip pluginVersion now metafile options).modules,
      ∀ uid ∈ m.chunkUniqueIds,
      ∃ c ∈ (transformMetafile readFile gzip pluginVersion now metafile options).chunks,
        c.uniqueId = uid) := by
  have ha := transform_assets_def readFile gzip pluginVersion now metafile options
  have hc := transform_chunks_def readFile gzip pluginVersion now metafile options
  rw [filterMap_if_none] at ha hc
  refine ⟨?_, ?_, ?_⟩
  · rw [ha, hc]
    simp
  · intro i hia hic
    rw [List.get_eq_getElem, List.get_eq_getElem]
    have hia' : i < ((metafile.outputs.filter
        (fun e => !hasSuffix e.1 ".map")).map (fun e => e.1)).length := by
      have := hia
      rw [ha] at this
      simpa using this
    constructor
    · simp only [ha, hc, List.getElem_map]
    · simp only [ha, hc, List.getElem_map]
  · intro m hm uid huid
    rw [transform_modules_def] at hm
    rcases List.mem_map.mp hm with ⟨ie, hie, hmod⟩
    rw [← hmod] at huid
    simp only at huid
    rcases List.mem_filterMap.mp huid with ⟨e, hmem, he⟩
    by_cases hmap : hasSuffix e.1 ".map"
    · rw [if_pos hmap] at he
      cases he
    · rw [if_neg hmap] at he
      by_cases hin : e.2.inputs.any (fun kv => kv.1 == ie.1)
      · rw [if_pos hin] at he
        rcases hg : mapGet (chunkIdMapOf metafile.outputs) e.1 with _ | u
        · rw [hg] at he
          cases he
        · rw [hg] at he
          dsimp only at he
          by_cases hu : u = ""
          · rw [if_pos hu] at he
            cases he
          · rw [if_neg hu] at he
            cases he
            refine ⟨{ id := e.1,
                      uniqueId := (mapGet (chunkIdMapOf metafile.outputs) e.1).getD "",
                      entry := e.2.entryPoint.isSome, initial := e.2.entryPoint.isSome,
                      names := [match e.2.entryPoint with
                                | some ep => if ep = "" then stripFinalExt (basename e.1)
                                             else stripFinalExt (basename ep)
                                | none => stripFinalExt (basename e.1)],
                      files := [e.1],
                      dynamicImports := e.2.imports.filterMap (fun imp =>
                        if imp.kind == "dynamic-import" && !imp.external then some imp.path
                        else none) }, ?_, ?_⟩
            · rw [transform_chunks_def]
              apply List.mem_filterMap.mpr
              exact ⟨e, hmem, by rw [if_neg hmap]⟩
            · simp [hg]
      · rw [if_neg hin] at he
        cases he

/-- Witness for C10 on the sample metafile. -/
theorem transform_invariants_witness :
    ((transformMetafile (fun _ => none) (fun _ => []) "1.0.0" 0 sampleMetafile
        { bundleName := "test" }).assets.length =
      (transformMetafile (fun _ => none) (fun _ => []) "1.0.0" 0 sampleMetafile
        { bundleName := "test" }).chunks.length) ∧
    ((transformMetafile (fun _ => none) (fun _ => []) "1.0.0" 0 sampleMetafile
        { bundleName := "test" }).assets.get ⟨0, by decide⟩).name =
      ((transformMetafile (fun _ => none) (fun _ => []) "1.0.0" 0 sampleMetafile
        { bundleName := "test" }).chunks.get ⟨0, by decide⟩).id :=
  have h := transform_invariants (fun _ => none) (fun _ => []) "1.0.0" 0 sampleMetafile
    { bundleName := "test" }
  ⟨h.1, (h.2.1 0 (by decide) (by decide)).1⟩

/-! ### Hash-regex lemmas for `normalize.ts` -/

theorem takeWhile_append_of_all (p : Char → Bool) (l₁ l₂ : List Char)
    (h₁ : l₁.all p = true)
    (h₂ : Option.all (fun c => !p c) l₂.head? = true) :
    (l₁ ++ l₂).takeWhile p = l₁ := by
  induction l₁ with
  | nil =>
    cases l₂ with
    | nil => rfl
    | cons c t =>
      simp only [Option.all, List.head?_cons, Bool.not_eq_true'] at h₂
      simp [List.takeWhile_cons, h₂]
  | cons a l ih =>
    simp only [List.all_cons, Bool.and_eq_true] at h₁
    simp [List.takeWhile_cons, h₁.1, ih h₁.2]

theorem drop_takeWhile_len (p : Char → Bool) (l : List Char) :
    l.drop (l.takeWhile p).length = l.dropWhile p := by
  induction l with
  | nil => rfl
  | cons c t ih =>
    by_cases h : p c
    · simp [List.takeWhile_cons, List.dropWhile_cons, h, ih]
    · simp [List.takeWhile_cons, List.dropWhile_cons, h]

theorem head_dropWhile_not (p : Char → Bool) (l : List Char) :
    Option.all (fun c => !p c) (l.dropWhile p).head? = true := by
  induction l with
  | nil => rfl
  | cons c t ih =>
    by_cases h : p c
    · simp only [List.dropWhile_cons, if_pos h]
      exact ih
    · simp [List.dropWhile_cons, h, Option.all]

theorem count_eq_zero_of_all (l : List Char) (p : Char → Bool) (a : Char)
    (hl : l.all p = true) (ha : p a = false) : l.count a = 0 := by
  rw [List.count_eq_zero]
  intro hmem
  rw [List.all_eq_true] at hl
  rw [hl a hmem] at ha
  cases ha

theorem isDotExt_iff (l : List Char) :
    isDotExt l = true ↔
      ∃ e, l = '.' :: e ∧ e ≠ [] ∧ e.all isAsciiLetter = true := by
  cases l with
  | nil => simp [isDotExt]
  | cons c e =>
    simp only [isDotExt, Bool.and_eq_true, beq_iff_eq, Bool.not_eq_true']
    constructor
    · rintro ⟨⟨hc, hne⟩, hall⟩
      refine ⟨e, by rw [hc], ?_, hall⟩
      intro h
      rw [h] at hne
      cases hne
    · rintro ⟨e', he', hne, hall⟩
      have hc : c = '.' := by injection he'
      have he : e = e' := by injection he'
      subst hc
      subst he
      refine ⟨⟨rfl, ?_⟩, hall⟩
      cases e with
      | nil => exact absurd rfl hne
      | cons a t => rfl

theorem matchHashAt_some_decomp (cs r : List Char) (h : matchHashAt cs = some r) :
    ∃ d run ext', cs = d :: (run ++ '.' :: ext') ∧ isDelim d = true ∧
      run.all isHexChar = true ∧ 8 ≤ run.length ∧ ext' ≠ [] ∧
      ext'.all isAsciiLetter = true ∧ r = d :: '*' :: '.' :: ext' := by
  cases cs with
  | nil => cases h
  | cons d rest =>
    simp only [matchHashAt] at h
    by_cases hd : isDelim d
    · rw [if_pos hd] at h
      by_cases hc : (decide (8 ≤ (rest.takeWhile isHexChar).length) &&
          isDotExt (rest.drop (rest.takeWhile isHexChar).length)) = true
      · rw [if_pos hc] at h
        rw [Bool.and_eq_true, decide_eq_true_eq] at hc
        obtain ⟨hlen, hdotext⟩ := hc
        obtain ⟨e, hdrop, hne, hall⟩ := (isDotExt_iff _).mp hdotext
        refine ⟨d, rest.takeWhile isHexChar, e, ?_, hd, List.all_takeWhile, hlen, hne,
          hall, ?_⟩
        · have hsplit : rest.takeWhile isHexChar ++
              rest.drop (rest.takeWhile isHexChar).length = rest := by
            rw [drop_takeWhile_len]
            exact List.takeWhile_append_dropWhile isHexChar rest
          have h1 : rest = rest.takeWhile isHexChar ++ '.' :: e := by
            conv_lhs => rw [← hsplit, hdrop]
          exact congrArg (List.cons d) h1
        · rw [hdrop] at h
          injection h with hr
          exact hr.symm
      · rw [if_neg hc] at h
        cases h
    · rw [if_neg hd] at h
      cases h

theorem matchHashAt_of_decomp (d : Char) (hex ext : List Char)
    (hd : isDelim d = true) (hhex : hex.all isHexChar = true) (hlen : 8 ≤ hex.length)
    (hne : ext ≠ []) (hext : ext.all isAsciiLetter = true) :
    matchHashAt (d :: (hex ++ '.' :: ext)) = some (d :: '*' :: '.' :: ext) := by
  have htw : (hex ++ '.' :: ext).takeWhile isHexChar = hex :=
    takeWhile_append_of_all isHexChar hex ('.' :: ext) hhex
      (by show Option.all (fun c => !isHexChar c) (some '.') = true; decide)
  have hdrop : (hex ++ '.' :: ext).drop hex.length = '.' :: ext :=
    List.drop_left hex ('.' :: ext)
  have hde : isDotExt ('.' :: ext) = true :=
    (isDotExt_iff _).mpr ⟨ext, rfl, hne, hext⟩
  simp only [matchHashAt]
  rw [if_pos hd, htw, hdrop]
  simp [hlen, hde]

theorem matchHashAt_none_inner (x : Char) (w : List Char) (d : Char)
    (hex ext : List Char) (hd : isDelim d = true) (hhex : hex.all isHexChar = true)
    (hext : ext.all isAsciiLetter = true) :
    matchHashAt (x :: (w ++ d :: (hex ++ '.' :: ext))) = none := by
  by_contra hne
  rcases hm : matchHashAt (x :: (w ++ d :: (hex ++ '.' :: ext))) with _ | r
  · exact hne hm
  obtain ⟨d₁, run, ext', heq, _, hrun, _, _, hall', _⟩ :=
    matchHashAt_some_decomp _ _ hm
  have htail : w ++ d :: (hex ++ '.' :: ext) = run ++ '.' :: ext' :=
    (List.cons.injEq _ _ _ _).mp heq |>.2
  have hcount : (run ++ '.' :: ext').count '.' = 1 := by
    rw [List.count_append, List.count_cons_self,
      count_eq_zero_of_all run isHexChar '.' hrun (by decide),
      count_eq_zero_of_all ext' isAsciiLetter '.' hall' (by decide)]
  rw [← htail] at hcount
  rw [List.count_append, List.count_cons, List.count_append, List.count_cons_self]
  at hcount
  rw [count_eq_zero_of_all hex isHexChar '.' hhex (by decide),
    count_eq_zero_of_all ext isAsciiLetter '.' hext (by decide)] at hcount
  -- `hcount : w.count '.' + ((0 + (1 + 0)) + if d == '.' then 1 else 0) = 1`-shaped:
  -- the delimiter cannot be a second dot, so it is a dash...
  rcases (by simpa [isDelim] using hd : d = '-' ∨ d = '.') with hdash | hdot
  · -- ...but a dash cannot occur in `run ++ '.' :: ext'` at all.
    have hmem : d ∈ run ++ '.' :: ext' := by
      rw [← htail]
      exact List.mem_append_right w (List.mem_cons_self d _)
    rcases List.mem_append.mp hmem with hmr | hme
    · rw [List.all_eq_true] at hrun
      have := hrun d hmr
      rw [hdash] at this
      cases this
    · rcases List.mem_cons.mp hme with hdd | hmx
      · rw [hdash] at hdd
        cases hdd
      · rw [List.all_eq_true] at hall'
        have := hall' d hmx
        rw [hdash] at this
        cases this
  · rw [hdot] at hcount
    simp at hcount

theorem replaceFirstHash_decomp (pre : List Char) (d : Char) (hex ext : List Char)
    (hd : isDelim d = true) (hhex : hex.all isHexChar = true) (hlen : 8 ≤ hex.length)
    (hne : ext ≠ []) (hext : ext.all isAsciiLetter = true) :
    replaceFirstHash (pre ++ d :: (hex ++ '.' :: ext)) =
      some (pre ++ d :: '*' :: '.' :: ext) := by
  induction pre with
  | nil =>
    rw [List.nil_append, List.nil_append]
    simp only [replaceFirstHash]
    rw [matchHashAt_of_decomp d hex ext hd hhex hlen hne hext]
  | cons x pre' ih =>
    rw [List.cons_append, List.cons_append]
    simp only [replaceFirstHash]
    rw [matchHashAt_none_inner x pre' d hex ext hd hhex hext, ih]
    rfl

theorem hasLongHexRun_of_head_run (l : List Char)
    (h8 : 8 ≤ (l.takeWhile isHexChar).length) : hasLongHexRun l = true := by
  cases l with
  | nil => simp [List.takeWhile_nil] at h8
  | cons c t =>
    simp only [hasLongHexRun, Bool.or_eq_true, decide_eq_true_eq]
    exact Or.inl h8

theorem hasLongHexRun_drop (n : Nat) (l : List Char)
    (h : hasLongHexRun (l.drop n) = true) : hasLongHexRun l = true := by
  induction n generalizing l with
  | zero => simpa using h
  | succ n ih =>
    cases l with
    | nil => simpa using h
    | cons c t =>
      rw [List.drop_succ_cons] at h
      simp only [hasLongHexRun, Bool.or_eq_true]
      exact Or.inr (ih t h)

theorem replaceFirstHash_none_of_no_run (cs : List Char)
    (h : hasLongHexRun cs = false) : replaceFirstHash cs = none := by
  induction cs with
  | nil => rfl
  | cons c rest ih =>
    rw [hasLongHexRun, Bool.or_eq_false_iff] at h
    simp only [replaceFirstHash]
    have hnone : matchHashAt (c :: rest) = none := by
      rcases hm : matchHashAt (c :: rest) with _ | r
      · rfl
      obtain ⟨d, run, ext', heq, _, hrun, hlen8, _, _, _⟩ :=
        matchHashAt_some_decomp _ _ hm
      have hrest : rest = run ++ '.' :: ext' := by injection heq
      have htw : rest.takeWhile isHexChar = run := by
        rw [hrest]
        exact takeWhile_append_of_all isHexChar run ('.' :: ext') hrun
          (by show Option.all (fun c => !isHexChar c) (some '.') = true; decide)
      have h8 : 8 ≤ (rest.takeWhile isHexChar).length := by
        rw [htw]
        exact hlen8
      have : hasLongHexRun rest = true := hasLongHexRun_of_head_run rest h8
      rw [this] at h
      cases h.2
    rw [hnone, ih h.2]
    rfl

theorem replaceHexRuns_nil : replaceHexRuns [] = [] := by
  simp [replaceHexRuns]

theorem replaceHexRuns_cons_not (c : Char) (l : List Char)
    (hc : isHexChar c = false) :
    replaceHexRuns (c :: l) = c :: replaceHexRuns l := by
  rw [replaceHexRuns, hc]
  simp

theorem replaceHexRuns_block (r₀ tail : List Char) (hr : r₀.all isHexChar = true)
    (hr0 : r₀ ≠ [])
    (ht : Option.all (fun c => !isHexChar c) tail.head? = true) :
    replaceHexRuns (r₀ ++ tail) =
      (if 8 ≤ r₀.length then ['*'] else r₀) ++ replaceHexRuns tail := by
  cases r₀ with
  | nil => exact absurd rfl hr0
  | cons c r' =>
    simp only [List.all_cons, Bool.and_eq_true] at hr
    have htw : (r' ++ tail).takeWhile isHexChar = r' :=
      takeWhile_append_of_all isHexChar r' tail hr.2 ht
    have hdrop : (r' ++ tail).drop r'.length = tail := List.drop_left r' tail
    rw [List.cons_append, replaceHexRuns, hr.1, htw, hdrop]
    by_cases h8 : 8 ≤ r'.length + 1
    · rw [if_pos h8]
      have h8' : 8 ≤ (c :: r').length := by
        rw [List.length_cons]
        exact h8
      rw [if_pos h8']
      simp
    · rw [if_neg h8]
      have h8' : ¬ 8 ≤ (c :: r').length := by
        rw [List.length_cons]
        exact h8
      rw [if_neg h8']
      simp

theorem replaceHexRuns_split_aux (run v : List Char)
    (hrun : run.all isHexChar = true) (hlen : 8 ≤ run.length)
    (hv : Option.all (fun c => !isHexChar c) v.head? = true) :
    ∀ n (u : List Char), u.length ≤ n →
      Option.all (fun c => !isHexChar c) u.getLast? = true →
      replaceHexRuns (u ++ run ++ v) =
        replaceHexRuns u ++ '*' :: replaceHexRuns v := by
  have hrun0 : run ≠ [] := by
    intro hnil
    rw [hnil] at hlen
    simp at hlen
  intro n
  induction n with
  | zero =>
    intro u hu0 hu
    have : u = [] := List.eq_nil_of_length_eq_zero (Nat.le_zero.mp hu0)
    subst this
    rw [List.nil_append, replaceHexRuns_nil, List.nil_append,
      replaceHexRuns_block run v hrun hrun0 hv, if_pos hlen]
    rfl
  | succ n ih =>
    intro u hul hu
    cases u with
    | nil =>
      rw [List.nil_append, replaceHexRuns_nil, List.nil_append,
        replaceHexRuns_block run v hrun hrun0 hv, if_pos hlen]
      rfl
    | cons c u' =>
      by_cases hc : isHexChar c
      · -- the head of `u` opens a (short) hex block of `u` itself
        have hu₁ : (c :: u').dropWhile isHexChar ≠ [] := by
          intro hnil
          have hall : ∀ x ∈ c :: u', isHexChar x = true :=
            List.dropWhile_eq_nil_iff.mp hnil
          cases hlast : (c :: u').getLast? with
          | none =>
            have : (c :: u') ≠ [] := by simp
            have := List.getLast?_isSome.mpr this
            rw [hlast] at this
            cases this
          | some a =>
            have ha : a ∈ c :: u' := List.mem_of_mem_getLast? (by rw [hlast]; rfl)
            have := hall a ha
            rw [hlast] at hu
            simp only [Option.all] at hu
            rw [this] at hu
            cases hu
        set r₀ := (c :: u').takeWhile isHexChar with hr₀
        set u₁ := (c :: u').dropWhile isHexChar with hu₁def
        have hsplitu : r₀ ++ u₁ = c :: u' := List.takeWhile_append_dropWhile isHexChar (c :: u')
        have hr₀ne : r₀ ≠ [] := by
          rw [hr₀]
          rw [List.takeWhile_cons, hc]
          simp
        have hr₀all : r₀.all isHexChar = true := List.all_takeWhile
        have hheadu₁ : Option.all (fun x => !isHexChar x) u₁.head? = true :=
          head_dropWhile_not isHexChar (c :: u')
        have hlast₁ : u₁.getLast? = (c :: u').getLast? := by
          conv_rhs => rw [← hsplitu]
          rw [List.getLast?_append_of_ne_nil r₀ hu₁]
        have hlen₁ : u₁.length ≤ n := by
          have h1 : r₀.length + u₁.length = u'.length + 1 := by
            have := congrArg List.length hsplitu
            simpa using this
          have h2 : 1 ≤ r₀.length := by
            cases hr : r₀ with
            | nil => exact absurd hr hr₀ne
            | cons a t => simp
          have h3 : u'.length + 1 ≤ n + 1 := by simpa using hul
          omega
        have hih := ih u₁ hlen₁ (by rw [hlast₁]; exact hu)
        have hheadmix : Option.all (fun x => !isHexChar x) (u₁ ++ run ++ v).head? = true := by
          rw [List.append_assoc, List.head?_append_of_ne_nil _ hu₁]
          exact hheadu₁
        calc replaceHexRuns (c :: u' ++ run ++ v)
            = replaceHexRuns (r₀ ++ (u₁ ++ run ++ v)) := by
              rw [← hsplitu, List.append_assoc, List.append_assoc, List.append_assoc]
          _ = (if 8 ≤ r₀.length then ['*'] else r₀) ++ replaceHexRuns (u₁ ++ run ++ v) := by
              rw [replaceHexRuns_block r₀ (u₁ ++ run ++ v) hr₀all hr₀ne
                (by rw [List.append_assoc] at hheadmix ⊢; exact hheadmix)]
          _ = (if 8 ≤ r₀.length then ['*'] else r₀) ++
                (replaceHexRuns u₁ ++ '*' :: replaceHexRuns v) := by rw [hih]
          _ = ((if 8 ≤ r₀.length then ['*'] else r₀) ++ replaceHexRuns u₁) ++
                '*' :: replaceHexRuns v := by rw [List.append_assoc]
          _ = replaceHexRuns (c :: u') ++ '*' :: replaceHexRuns v := by
              rw [← replaceHexRuns_block r₀ u₁ hr₀all hr₀ne hheadu₁, hsplitu]
      · -- non-hex head: peel it off on both sides
        have hcf : isHexChar c = false := by simpa using hc
        cases u' with
        | nil =>
          rw [List.cons_append, List.nil_append, List.cons_append,
            replaceHexRuns_cons_not c (run ++ v) hcf,
            replaceHexRuns_cons_not c [] hcf, replaceHexRuns_nil,
            replaceHexRuns_block run v hrun hrun0 hv, if_pos hlen]
          rfl
        | cons b t =>
          have hlast' : (b :: t).getLast? = (c :: b :: t).getLast? :=
            (List.getLast?_cons_cons).symm
          have hih := ih (b :: t) (by simp at hul ⊢; omega) (by rw [hlast']; exact hu)
          rw [List.cons_append, List.cons_append,
            replaceHexRuns_cons_not c ((b :: t) ++ run ++ v) hcf,
            replaceHexRuns_cons_not c (b :: t) hcf]
          rw [List.append_assoc] at hih ⊢
          rw [hih]
          rfl

/-- Splitting lemma for the fallback replacement: a maximal hex run of
length at least 8 collapses to `*` while the surroundings are processed
independently. -/
theorem replaceHexRuns_split (u run v : List Char)
    (hrun : run.all isHexChar = true) (hlen : 8 ≤ run.length)
    (hu : Option.all (fun c => !isHexChar c) u.getLast? = true)
    (hv : Option.all (fun c => !isHexChar c) v.head? = true) :
    replaceHexRuns (u ++ run ++ v) =
      replaceHexRuns u ++ '*' :: replaceHexRuns v :=
  replaceHexRuns_split_aux run v hrun hlen hv u.length u le_rfl hu

theorem replaceHexRuns_id_aux :
    ∀ n (cs : List Char), cs.length ≤ n → hasLongHexRun cs = false →
      replaceHexRuns cs = cs := by
  intro n
  induction n with
  | zero =>
    intro cs h0 _
    have : cs = [] := List.eq_nil_of_length_eq_zero (Nat.le_zero.mp h0)
    subst this
    exact replaceHexRuns_nil
  | succ n ih =>
    intro cs hlen h
    cases cs with
    | nil => exact replaceHexRuns_nil
    | cons c rest =>
      rw [hasLongHexRun, Bool.or_eq_false_iff] at h
      by_cases hc : isHexChar c
      · have h8 : ¬ 8 ≤ (rest.takeWhile isHexChar).length + 1 := by
          have := h.1
          rw [decide_eq_false_iff_not] at this
          rw [List.takeWhile_cons, hc] at this
          simpa using this
        rw [replaceHexRuns, hc]
        simp only [if_true]
        rw [if_neg h8]
        have hdroplen : (rest.drop (rest.takeWhile isHexChar).length).length ≤ n := by
          have h1 : (rest.drop (rest.takeWhile isHexChar).length).length ≤ rest.length := by
            rw [List.length_drop]
            omega
          have h2 : rest.length + 1 ≤ n + 1 := by simpa using hlen
          omega
        have hdropfalse : hasLongHexRun (rest.drop (rest.takeWhile isHexChar).length) = false := by
          cases hd : hasLongHexRun (rest.drop (rest.takeWhile isHexChar).length) with
          | false => rfl
          | true =>
            have htrue : hasLongHexRun (c :: rest) = true := by
              have hstep : (c :: rest).drop ((rest.takeWhile isHexChar).length + 1) =
                  rest.drop (rest.takeWhile isHexChar).length := List.drop_succ_cons
              exact hasLongHexRun_drop _ _ (by rw [hstep]; exact hd)
            rw [hasLongHexRun, Bool.or_eq_true] at htrue
            rcases htrue with h1 | h2
            · rw [h.1] at h1
              cases h1
            · rw [h.2] at h2
              cases h2
        rw [ih _ hdroplen hdropfalse, drop_takeWhile_len, List.cons_append,
          List.takeWhile_append_dropWhile]
      · have hcf : isHexChar c = false := by simpa using hc
        rw [replaceHexRuns_cons_not c rest hcf,
          ih rest (by simpa using Nat.le_of_succ_le_succ (by simpa using hlen)) h.2]

/-- Fallback identity: with no hex run of length 8 or more, the global
replacement leaves the base name unchanged. -/
theorem replaceHexRuns_id (cs : List Char) (h : hasLongHexRun cs = false) :
    replaceHexRuns cs = cs :=
  replaceHexRuns_id_aux cs.length cs le_rfl h

theorem normalizeAssetName_eq (name : String) :
    normalizeAssetName name =
      (match replaceFirstHash (basename name).data with
       | some repl =>
         if dirname name = "." then String.mk repl
         else joinPath (dirname name) (String.mk repl)
       | none =>
         if dirname name = "." then String.mk (replaceHexRuns (basename name).data)
         else joinPath (dirname name) (String.mk (replaceHexRuns (basename name).data))) :=
  rfl

/-! ### C3: hash stripping in `normalizeAssetName` -/

/-- C3 (amended): when the base name decomposes as
`pre ++ d :: hex ++ '.' :: ext` with `d ∈ {-, .}`, `hex` a hex run of length
at least 8 and `ext` a non-empty ASCII-letter extension (of either case —
the regex carries the `/i` flag, so the extension letters are matched
case-insensitively, not lowercase-only), exactly that hash run is replaced
by `*`, keeping the delimiter, the extension and the directory prefix; when
the anchored regex does not match at all, every maximal hex run of length at
least 8 in the base name collapses to a single `*` (here exhibited at one
such run, the rest of the base name being processed independently), again
re-attached to the directory prefix. -/
theorem normalizeAssetName_spec :
    (∀ (p : String) (pre : List Char) (d : Char) (hex ext : List Char),
      (basename p).data = pre ++ d :: (hex ++ '.' :: ext) →
      isDelim d = true →
      hex.all isHexChar = true →
      8 ≤ hex.length →
      ext ≠ [] →
      ext.all isAsciiLetter = true →
      normalizeAssetName p =
        (if dirname p = "." then String.mk (pre ++ d :: '*' :: '.' :: ext)
         else joinPath (dirname p) (String.mk (pre ++ d :: '*' :: '.' :: ext)))) ∧
    (∀ (p : String) (u run v : List Char),
      replaceFirstHash (basename p).data = none →
      (basename p).data = u ++ run ++ v →
      run.all isHexChar = true →
      8 ≤ run.length →
      Option.all (fun c => !isHexChar c) u.getLast? = true →
      Option.all (fun c => !isHexChar c) v.head? = true →
      normalizeAssetName p =
        (if dirname p = "." then
          String.mk (replaceHexRuns u ++ '*' :: replaceHexRuns v)
         else joinPath (dirname p)
          (String.mk (replaceHexRuns u ++ '*' :: replaceHexRuns v)))) := by
  constructor
  · intro p pre d hex ext hdecomp hd hhex hlen hne hext
    rw [normalizeAssetName_eq, hdecomp,
      replaceFirstHash_decomp pre d hex ext hd hhex hlen hne hext]
  · intro p u run v hnomatch hdecomp hrun hlen hu hv
    rw [normalizeAssetName_eq, hnomatch, hdecomp,
      replaceHexRuns_split u run v hrun hlen hu hv]

/-- Counterexample to C3 as stated: the regex flag `/i` lets the extension
match upper-case letters, so `deadbeef-cafe1234.JS` takes the anchored-match
branch (producing `deadbeef-*.JS`) although the claim, reading the extension
as a lowercase-letter sequence, prescribes the fallback result `*-*.JS`
where the run `deadbeef` is also collapsed. -/
theorem normalizeAssetName_counterexample :
    normalizeAssetName "deadbeef-cafe1234.JS" = "deadbeef-*.JS" ∧
    "deadbeef-*.JS" ≠ "*-*.JS" := by
  constructor
  · rfl
  · decide

/-- Witness for C3 (amended): the anchored branch at
`dist/assets/main-abc123ef.js` and the fallback branch at `deadbeef1234`. -/
theorem normalizeAssetName_spec_witness :
    (normalizeAssetName "dist/assets/main-abc123ef.js" =
      (if dirname "dist/assets/main-abc123ef.js" = "." then
        String.mk ("main".data ++ '-' :: '*' :: '.' :: "js".data)
       else joinPath (dirname "dist/assets/main-abc123ef.js")
        (String.mk ("main".data ++ '-' :: '*' :: '.' :: "js".data)))) ∧
    (normalizeAssetName "deadbeef1234" =
      (if dirname "deadbeef1234" = "." then
        String.mk (replaceHexRuns [] ++ '*' :: replaceHexRuns [])
       else joinPath (dirname "deadbeef1234")
        (String.mk (replaceHexRuns [] ++ '*' :: replaceHexRuns [])))) :=
  ⟨normalizeAssetName_spec.1 "dist/assets/main-abc123ef.js" "main".data '-'
      "abc123ef".data "js".data (by decide) (by decide) (by decide) (by decide)
      (by decide) (by decide),
   normalizeAssetName_spec.2 "deadbeef1234" [] "deadbeef1234".data [] (by decide)
      (by decide) (by decide) (by decide) (by decide) (by decide)⟩

/-! ### C9: identity on hash-free names -/

/-- C9 (amended): on a path in normal form — either its directory part is
`.` and the path is its own base name, or re-joining directory and base name
reproduces the path — whose base name contains no hex run of 8 or more
characters, `normalizeAssetName` is the identity.  (On non-normal paths such
as `./style.css` the dirname/join round trip rewrites the directory prefix
even though no hash is stripped.) -/
theorem normalizeAssetName_id (p : String)
    (hnorm : (dirname p = "." ∧ basename p = p) ∨
      (dirname p ≠ "." ∧ joinPath (dirname p) (basename p) = p))
    (hhex : hasLongHexRun (basename p).data = false) :
    normalizeAssetName p = p := by
  rw [normalizeAssetName_eq, replaceFirstHash_none_of_no_run _ hhex,
    replaceHexRuns_id _ hhex]
  have hmk : String.mk (basename p).data = basename p := rfl
  rw [hmk]
  rcases hnorm with ⟨hdir, hbase⟩ | ⟨hdir, hjoin⟩
  · rw [if_pos hdir]
    exact hbase
  · rw [if_neg hdir]
    exact hjoin

/-- Counterexample to C9 as stated: `./style.css` has no hex run of length 8
or more, yet `normalizeAssetName` returns `style.css`, dropping the `./`
prefix, because the directory part computed by `dirname` is `.`. -/
theorem normalizeAssetName_id_counterexample :
    normalizeAssetName "./style.css" = "style.css" ∧
    "style.css" ≠ "./style.css" := by
  constructor
  · have hb : basename "./style.css" = "style.css" := rfl
    rw [normalizeAssetName_eq, hb,
      replaceFirstHash_none_of_no_run ("style.css").data (by decide),
      replaceHexRuns_id ("style.css").data (by decide)]
    rfl
  · decide

/-- Witness for C9 (amended) on a nested hash-free path. -/
theorem normalizeAssetName_id_witness :
    normalizeAssetName "dist/assets/app.js" = "dist/assets/app.js" :=
  normalizeAssetName_id "dist/assets/app.js" (Or.inr ⟨by decide, by decide⟩)
    (by decide)

end MetafileCodecov
